import Mathlib

set_option linter.unusedVariables false

/-!
Shallow embedding of `src/intervardb/hg19/updates/variant_summary_index/build_clinvar_index.py`
(function `build_clinvar_gene_index`), together with theorems settling the
frozen claims about its specification.

Modelling conventions:
* a Python string is a Lean `String`; the inputs are ASCII, so `str.lower`
  is modelled by `Char.toLower` and `str.strip` by dropping ASCII whitespace
  from both ends;
* a Python dict is an insertion-ordered association list (CPython dicts
  preserve insertion order; updating an existing key keeps its slot, a new
  key is appended at the end);
* `re.search` over the three concrete patterns of the script is modelled by
  a leftmost scan that tries an anchored match at every start position, with
  greedy digit capture (the patterns contain no constructs where Python
  backtracking could produce anything else);
* the data lines of the input file (after the single header line consumed by
  `f.readline()`) are a `List String`, folded left to right as the `for`
  loop does.
-/

/-- ASCII whitespace, as stripped by Python `str.strip()` and matched by the
regex class backslash-s on ASCII input: space, tab, LF, CR, VT, FF. -/
def isPySpace (c : Char) : Bool :=
  c = ' ' || c = '\t' || c = '\n' || c = '\r' || c = Char.ofNat 11 || c = Char.ofNat 12

/-- Python `str.strip()`: remove leading and trailing whitespace. -/
def pyStrip (s : String) : String :=
  ⟨((s.toList.dropWhile isPySpace).reverse.dropWhile isPySpace).reverse⟩

/-- Python `str.lower()` on ASCII text: lowercase each character. -/
def pyLower (s : String) : String :=
  ⟨s.toList.map Char.toLower⟩

/-- Python substring test `needle in hay`: some suffix of `hay` starts with
`needle`. -/
def strContains (hay needle : String) : Bool :=
  (List.range (hay.toList.length + 1)).any fun i =>
    needle.toList.isPrefixOf (hay.toList.drop i)

/-- Structural split of a character list at every tab, modelling Python
`s.split('\t')`: every separator occurrence starts a new field, and the
result always has one field more than the number of separators. -/
def splitTab : List Char → List (List Char)
  | [] => [[]]
  | c :: rest =>
    match splitTab rest with
    | [] => [[]]
    | fld :: flds => if c = '\t' then [] :: fld :: flds else (c :: fld) :: flds

/-- Python `s.split('\t')` on a string. -/
def pySplit (s : String) : List String :=
  (splitTab s.toList).map fun l => ⟨l⟩

/-- Loss-of-function keyword list of the script (line 71). -/
def lof_keywords : List String :=
  ["nonsense", "frameshift", "splice", "stop", "ter", "fs",
   "deletion", "truncat", "del", "dup"]

/-- Value of a captured run of decimal digits, as Python `int` reads it. -/
def digitsToNat (ds : List Char) : Nat :=
  ds.foldl (fun n c => 10 * n + (c.toNat - '0'.toNat)) 0

/-- Separator class of the exon pattern: whitespace or colon. -/
def exonSep (c : Char) : Bool :=
  isPySpace c || c = ':'

/-- Anchored match of the case-insensitive pattern `exon`, then any number
of whitespace/colon separators, then one or more digits whose run is
captured (script line 92). -/
def exonMatchAt : List Char → Option Nat
  | e :: x :: o :: n :: rest =>
    if e.toLower = 'e' && x.toLower = 'x' && o.toLower = 'o' && n.toLower = 'n' then
      let ds := (rest.dropWhile exonSep).takeWhile Char.isDigit
      if ds.isEmpty then none else some (digitsToNat ds)
    else none
  | _ => none

/-- Anchored match of `p.`, one uppercase letter, two lowercase letters,
then a captured run of one or more digits (script line 99). -/
def prot3MatchAt : List Char → Option Nat
  | 'p' :: '.' :: a :: b :: c :: rest =>
    if a.isUpper && b.isLower && c.isLower then
      let ds := rest.takeWhile Char.isDigit
      if ds.isEmpty then none else some (digitsToNat ds)
    else none
  | _ => none

/-- Anchored match of `p.`, one uppercase letter, then a captured run of
one or more digits (script line 101). -/
def prot1MatchAt : List Char → Option Nat
  | 'p' :: '.' :: a :: rest =>
    if a.isUpper then
      let ds := rest.takeWhile Char.isDigit
      if ds.isEmpty then none else some (digitsToNat ds)
    else none
  | _ => none

/-- Leftmost search: try the anchored matcher at each start position from
the left, returning the first success, as `re.search` does for these
patterns. -/
def searchPos (f : List Char → Option Nat) : List Char → Option Nat
  | [] => none
  | c :: rest =>
    match f (c :: rest) with
    | some v => some v
    | none => searchPos f rest

/-- Search for the exon pattern in a variant name (script line 92). -/
def exonSearch (name : String) : Option Nat :=
  searchPos exonMatchAt name.toList

/-- Search for the three-letter amino-acid protein-position pattern
(script line 99). -/
def protSearch3 (name : String) : Option Nat :=
  searchPos prot3MatchAt name.toList

/-- Search for the single-letter protein-position pattern (script
line 101). -/
def protSearch1 (name : String) : Option Nat :=
  searchPos prot1MatchAt name.toList

/-- Protein-position extraction (script lines 99-101): the three-letter
pattern is tried first; the single-letter pattern is tried only when the
first finds no match. -/
def prot_search (name : String) : Option Nat :=
  match protSearch3 name with
  | some v => some v
  | none => protSearch1 name

/-- Per-gene accumulator during the scan phase: the dict stored at
`gene_data[gene_symbol]` (script lines 84-88). -/
structure GeneEntry where
  exon_counts : List (Nat × Nat)
  position_list : List Nat
  variant_names : List String
deriving DecidableEq

/-- Fresh entry created on the first qualifying variant of a gene. -/
def emptyEntry : GeneEntry :=
  ⟨[], [], []⟩

/-- The accumulator dict `gene_data`, as an insertion-ordered association
list. -/
abbrev GeneData := List (String × GeneEntry)

/-- Dict lookup `gene_data.get(g)`. -/
def lookupGene : GeneData → String → Option GeneEntry
  | [], _ => none
  | (g, e) :: rest, s => if g = s then some e else lookupGene rest s

/-- Dict update `gene_data[g] = e`: an existing key keeps its slot, a new
key is appended (insertion order of CPython dicts). -/
def setGene : GeneData → String → GeneEntry → GeneData
  | [], s, e => [(s, e)]
  | (g, e0) :: rest, s, e =>
    if g = s then (s, e) :: rest else (g, e0) :: setGene rest s e

/-- Histogram bump `d[k] = d.get(k, 0) + 1` on an insertion-ordered
association list (script line 95). -/
def bumpExon : List (Nat × Nat) → Nat → List (Nat × Nat)
  | [], k => [(k, 1)]
  | (k0, v) :: rest, k =>
    if k0 = k then (k0, v + 1) :: rest else (k0, v) :: bumpExon rest k

/-- Mutations applied to one gene entry by one qualifying record (script
lines 92-108): bump the exon histogram when the exon pattern matches the
name, append the protein position when one of the two protein patterns
matches, and always append the variant name. -/
def updateEntry (e0 : GeneEntry) (name : String) : GeneEntry :=
  let e1 :=
    match exonSearch name with
    | some ex => { e0 with exon_counts := bumpExon e0.exon_counts ex }
    | none => e0
  let e2 :=
    match prot_search name with
    | some pos => { e1 with position_list := e1.position_list ++ [pos] }
    | none => e1
  { e2 with variant_names := e2.variant_names ++ [name] }

/-- Processing of one split record (script lines 57-109): skip when fewer
than 35 columns; filter on clinical significance (column 6) and
loss-of-function keywords in the name (column 2); then create or update the
gene entry keyed by column 4, applying `updateEntry` to the entry found in
the dict (or to a fresh empty entry). -/
def processCols (gd : GeneData) (cols : List String) : GeneData :=
  if cols.length < 35 then gd
  else
    let gene_symbol := cols.getD 4 ""
    let clinsig := pyLower (cols.getD 6 "")
    let name := cols.getD 2 ""
    if !strContains clinsig "pathogenic" || strContains clinsig "conflicting" then gd
    else
      let is_lof := lof_keywords.any fun kw => strContains (pyLower name) kw
      if !is_lof then gd
      else
        setGene gd gene_symbol
          (updateEntry ((lookupGene gd gene_symbol).getD emptyEntry) name)

/-- Processing of one raw line (script line 56): strip it, split it on
tabs, then process the columns. -/
def processLine (gd : GeneData) (line : String) : GeneData :=
  processCols gd (pySplit (pyStrip line))

/-- Truncated-region counts of a position list (script lines 128-133): for
each distinct position, taken in ascending order, the number of entries of
the list that are at least that position. `sorted(set(position_list))` is
the ascending duplicate-free enumeration of the values of the list. -/
def truncated_counts (position_list : List Nat) : List (Nat × Nat) :=
  ((position_list.insertionSort (· ≤ ·)).dedup).map fun pos =>
    (pos, position_list.countP fun p => decide (pos ≤ p))

/-- Finalized per-gene record, after Phase 2 adds `truncated_counts`. -/
structure FinalEntry where
  exon_counts : List (Nat × Nat)
  position_list : List Nat
  variant_names : List String
  truncated_counts : List (Nat × Nat)
deriving DecidableEq

/-- Phase 2 finalization of one gene entry (script line 135). -/
def finalizeEntry (e : GeneEntry) : FinalEntry :=
  ⟨e.exon_counts, e.position_list, e.variant_names, truncated_counts e.position_list⟩

/-- The whole build as a function of the data lines: fold the scan over the
lines starting from the empty dict, then finalize every gene (script
lines 35-135). -/
def build_clinvar_gene_index (lines : List String) : List (String × FinalEntry) :=
  (lines.foldl processLine []).map fun ge => (ge.1, finalizeEntry ge.2)

/-- Lookup in the finalized index. -/
def lookupFinal : List (String × FinalEntry) → String → Option FinalEntry
  | [], _ => none
  | (g, e) :: rest, s => if g = s then some e else lookupFinal rest s

/-- Sum of the values of an exon histogram, modelling
`sum(d.values())`. -/
def sumValues (m : List (Nat × Nat)) : Nat :=
  (m.map Prod.snd).sum

/-- Comparison used by the top-10 report: Python
`sort(key=count, reverse=True)` is a stable sort that places higher counts
first and keeps the original order of ties. -/
def pairGe (a b : String × Nat) : Prop :=
  b.2 ≤ a.2

instance : DecidableRel pairGe :=
  fun a b => inferInstanceAs (Decidable (b.2 ≤ a.2))

instance : IsTotal (String × Nat) pairGe :=
  ⟨fun a b => Nat.le_total b.2 a.2⟩

instance : IsTrans (String × Nat) pairGe :=
  ⟨fun a b c hab hbc => Nat.le_trans hbc hab⟩

/-- Count pairs of the summary (script line 162): every gene of the index
paired with the length of its position list. -/
def gene_counts_of (index : List (String × FinalEntry)) : List (String × Nat) :=
  index.map fun ge => (ge.1, ge.2.position_list.length)

/-- Annotation of one summary row (script lines 166-168): the gene, its
reported count, and the sum of the values of its exon histogram. -/
def annotate (index : List (String × FinalEntry)) (gc : String × Nat) : String × Nat × Nat :=
  (gc.1, gc.2, sumValues (((lookupFinal index gc.1).getD ⟨[], [], [], []⟩).exon_counts))

/-- Final summary rows (script lines 162-168): pair every gene with the
length of its position list, stably sort by that count in decreasing
order, keep the first ten, and annotate each row. -/
def top10_report (index : List (String × FinalEntry)) : List (String × Nat × Nat) :=
  (((gene_counts_of index).insertionSort pairGe).take 10).map (annotate index)

/-- Specification-side derivation for the refinement claim, following the
spec text of the Range-Count Deriver: after sorting ascending, one pass
accumulates the suffix counts keyed by the distinct values: the head of the
sorted suffix is a distinct value, the whole suffix counts toward it, and
the pass continues after skipping its duplicates. -/
def suffix_counts_sorted : List Nat → List (Nat × Nat)
  | [] => []
  | v :: rest =>
    (v, rest.length + 1) :: suffix_counts_sorted (rest.dropWhile fun x => decide (x = v))
termination_by l => l.length
decreasing_by
  simp only [List.length_cons]
  exact Nat.lt_succ_of_le (List.dropWhile_sublist _ |>.length_le)

/-- Specification-side efficient computation of the truncated counts: sort
the position list ascending, then derive the suffix counts in one pass. -/
def truncated_counts_fast (l : List Nat) : List (Nat × Nat) :=
  suffix_counts_sorted (l.insertionSort (· ≤ ·))

/-- Possible outcomes of the serialization phase (script lines 143-152):
the `open(output_index_file, 'wb')` call can fail before a file is
created, the `pickle.dump` can fail after the file has been created and
truncated, or the write completes. -/
inductive WriteOutcome where
  | openFailed
  | dumpFailed
  | ok
deriving DecidableEq

/-- Observable state of the output path after a run. -/
inductive OutputState where
  | noFile
  | incompleteFile
  | fullIndex (idx : List (String × FinalEntry))
deriving DecidableEq

/-- Decision whether an output state is what the no-incomplete-artifact
property allows after any run: the full index, or no file at all. -/
def isFullOrAbsent : OutputState → Bool
  | .noFile => true
  | .incompleteFile => false
  | .fullIndex _ => true

/-- Effect-level model of one whole run of the script, with its exit code
and the resulting state of the output path. Line 19 checks the input path
before anything touches the output, exiting with status 1; lines 40-121
read the input and exit with status 1 on a read failure, still before the
output is touched; lines 143-152 open the output for writing, truncating
or creating it, then dump the index, and exit with status 1 when either
step fails. A dump failure therefore leaves an incomplete file behind. -/
def run_build (inputExists readOk : Bool) (lines : List String) (w : WriteOutcome)
    (prior : OutputState) : Nat × OutputState :=
  if !inputExists then (1, prior)
  else if !readOk then (1, prior)
  else
    match w with
    | .openFailed => (1, prior)
    | .dumpFailed => (1, .incompleteFile)
    | .ok => (0, .fullIndex (build_clinvar_gene_index lines))

/-- Columns of an example record: 35 fields with the load-bearing columns
(2 = variant name, 4 = gene symbol, 6 = clinical significance) filled
in. -/
def exCols (name gene sig : String) : List String :=
  ["a", "b", name, "d", gene, "f", sig] ++ List.replicate 28 "x"

/-- Raw tab-separated line carrying the columns of `exCols`. -/
def exLine (name gene sig : String) : String :=
  String.intercalate "\t" (exCols name gene sig)

/-! Helper lemmas about the dictionary operations. -/

theorem lookupGene_setGene_self (gd : GeneData) (g : String) (e : GeneEntry) :
    lookupGene (setGene gd g e) g = some e := by
  induction gd with
  | nil => simp [setGene, lookupGene]
  | cons q rest ih =>
    obtain ⟨g0, e0⟩ := q
    by_cases h : g0 = g
    · simp [setGene, h, lookupGene]
    · simp [setGene, h, lookupGene, ih]

theorem mem_setGene {gd : GeneData} {g : String} {e : GeneEntry} {p : String × GeneEntry}
    (h : p ∈ setGene gd g e) : p ∈ gd ∨ p = (g, e) := by
  induction gd with
  | nil =>
    simp only [setGene, List.mem_singleton] at h
    exact Or.inr h
  | cons q rest ih =>
    obtain ⟨g0, e0⟩ := q
    by_cases hg : g0 = g
    · simp only [setGene, if_pos hg, List.mem_cons] at h
      rcases h with h | h
      · exact Or.inr h
      · exact Or.inl (List.mem_cons_of_mem _ h)
    · simp only [setGene, if_neg hg, List.mem_cons] at h
      rcases h with h | h
      · exact Or.inl (h ▸ List.mem_cons_self _ _)
      · rcases ih h with h | h
        · exact Or.inl (List.mem_cons_of_mem _ h)
        · exact Or.inr h

theorem lookupGene_mem {gd : GeneData} {g : String} {e : GeneEntry}
    (h : lookupGene gd g = some e) : (g, e) ∈ gd := by
  induction gd with
  | nil => simp [lookupGene] at h
  | cons q rest ih =>
    obtain ⟨g0, e0⟩ := q
    by_cases hg : g0 = g
    · subst hg
      have he : e0 = e := by simpa [lookupGene] using h
      subst he
      exact List.mem_cons_self _ _
    · simp only [lookupGene, if_neg hg] at h
      exact List.mem_cons_of_mem _ (ih h)

theorem map_fst_setGene (gd : GeneData) (g : String) (e : GeneEntry) :
    (setGene gd g e).map Prod.fst =
      if g ∈ gd.map Prod.fst then gd.map Prod.fst else gd.map Prod.fst ++ [g] := by
  induction gd with
  | nil => simp [setGene]
  | cons q rest ih =>
    obtain ⟨g0, e0⟩ := q
    by_cases hg : g0 = g
    · subst hg
      simp [setGene]
    · have hg' : ¬ g = g0 := fun hh => hg hh.symm
      by_cases hmem : g ∈ rest.map Prod.fst
      · simp [setGene, hg, ih, hmem, hg']
      · simp [setGene, hg, ih, hmem, hg']

theorem keys_nodup_setGene {gd : GeneData} (g : String) (e : GeneEntry)
    (h : (gd.map Prod.fst).Nodup) : ((setGene gd g e).map Prod.fst).Nodup := by
  rw [map_fst_setGene]
  by_cases hmem : g ∈ gd.map Prod.fst
  · simpa [hmem] using h
  · simp [hmem, List.nodup_append, h]

theorem lookupFinal_eq_some_of_mem {index : List (String × FinalEntry)} {g : String}
    {fe : FinalEntry} (hnd : (index.map Prod.fst).Nodup) (h : (g, fe) ∈ index) :
    lookupFinal index g = some fe := by
  induction index with
  | nil => cases h
  | cons q rest ih =>
    obtain ⟨g0, e0⟩ := q
    simp only [List.map_cons, List.nodup_cons] at hnd
    rcases List.mem_cons.mp h with h | h
    · obtain ⟨h1, h2⟩ := Prod.mk.injEq .. ▸ h
      simp [lookupFinal, h1.symm, h2]
    · by_cases hg : g0 = g
      · exfalso
        apply hnd.1
        subst hg
        exact List.mem_map.mpr ⟨(g0, fe), h, rfl⟩
      · simp only [lookupFinal, if_neg hg]
        exact ih hnd.2 h

/-! Helper lemmas about the per-record update and the scan loop. -/

theorem updateEntry_variant_names (e0 : GeneEntry) (name : String) :
    (updateEntry e0 name).variant_names = e0.variant_names ++ [name] := by
  unfold updateEntry
  cases exonSearch name <;> cases prot_search name <;> rfl

theorem processCols_short {gd : GeneData} {cols : List String} (h : cols.length < 35) :
    processCols gd cols = gd := by
  simp [processCols, h]

theorem processCols_skip {gd : GeneData} {cols : List String}
    (h : cols.length < 35 ∨
      strContains (pyLower (cols.getD 6 "")) "pathogenic" = false ∨
      strContains (pyLower (cols.getD 6 "")) "conflicting" = true ∨
      (lof_keywords.any fun kw => strContains (pyLower (cols.getD 2 "")) kw) = false) :
    processCols gd cols = gd := by
  rcases h with h | h | h | h
  · exact processCols_short h
  · unfold processCols
    split
    · rfl
    · simp only []
      rw [if_pos (show (!strContains (pyLower (cols.getD 6 "")) "pathogenic" ||
          strContains (pyLower (cols.getD 6 "")) "conflicting") = true by
            rw [h]; simp)]
  · unfold processCols
    split
    · rfl
    · simp only []
      rw [if_pos (show (!strContains (pyLower (cols.getD 6 "")) "pathogenic" ||
          strContains (pyLower (cols.getD 6 "")) "conflicting") = true by
            rw [h]; simp)]
  · unfold processCols
    split
    · rfl
    · simp only []
      split
      · rfl
      · rw [if_pos (show (!lof_keywords.any fun kw =>
            strContains (pyLower (cols.getD 2 "")) kw) = true by rw [h]; rfl)]

theorem processCols_included {gd : GeneData} {cols : List String}
    (h35 : ¬ cols.length < 35)
    (hp : strContains (pyLower (cols.getD 6 "")) "pathogenic" = true)
    (hc : strContains (pyLower (cols.getD 6 "")) "conflicting" = false)
    (hlof : (lof_keywords.any fun kw => strContains (pyLower (cols.getD 2 "")) kw) = true) :
    processCols gd cols =
      setGene gd (cols.getD 4 "")
        (updateEntry ((lookupGene gd (cols.getD 4 "")).getD emptyEntry) (cols.getD 2 "")) := by
  unfold processCols
  rw [if_neg h35]
  simp only []
  rw [if_neg (show ¬ (!strContains (pyLower (cols.getD 6 "")) "pathogenic" ||
      strContains (pyLower (cols.getD 6 "")) "conflicting") = true by rw [hp, hc]; decide)]
  rw [if_neg (show ¬ (!lof_keywords.any fun kw =>
      strContains (pyLower (cols.getD 2 "")) kw) = true by rw [hlof]; decide)]

theorem keys_nodup_processCols {gd : GeneData} (cols : List String)
    (h : (gd.map Prod.fst).Nodup) : ((processCols gd cols).map Prod.fst).Nodup := by
  by_cases h35 : cols.length < 35
  · rw [processCols_short h35]; exact h
  · by_cases hp : strContains (pyLower (cols.getD 6 "")) "pathogenic" = true
    · by_cases hc : strContains (pyLower (cols.getD 6 "")) "conflicting" = true
      · rw [processCols_skip (Or.inr (Or.inr (Or.inl hc)))]; exact h
      · by_cases hlof :
          (lof_keywords.any fun kw => strContains (pyLower (cols.getD 2 "")) kw) = true
        · rw [processCols_included h35 hp (by simpa using hc) hlof]
          exact keys_nodup_setGene _ _ h
        · rw [processCols_skip (Or.inr (Or.inr (Or.inr (by simpa using hlof))))]; exact h
    · rw [processCols_skip (Or.inr (Or.inl (by simpa using hp)))]; exact h

theorem keys_nodup_foldl (lines : List String) :
    ∀ gd : GeneData, (gd.map Prod.fst).Nodup →
      ((lines.foldl processLine gd).map Prod.fst).Nodup := by
  induction lines with
  | nil => intro gd h; exact h
  | cons line rest ih =>
    intro gd h
    exact ih _ (keys_nodup_processCols _ h)

theorem build_keys_nodup (lines : List String) :
    ((build_clinvar_gene_index lines).map Prod.fst).Nodup := by
  unfold build_clinvar_gene_index
  rw [List.map_map]
  have hcomp : (Prod.fst ∘ fun ge : String × GeneEntry => (ge.1, finalizeEntry ge.2)) =
      Prod.fst := rfl
  rw [hcomp]
  exact keys_nodup_foldl lines [] (by simp)

theorem mem_build {lines : List String} {g : String} {fe : FinalEntry}
    (h : (g, fe) ∈ build_clinvar_gene_index lines) :
    ∃ e : GeneEntry, (g, e) ∈ lines.foldl processLine [] ∧ fe = finalizeEntry e := by
  unfold build_clinvar_gene_index at h
  obtain ⟨⟨g0, e⟩, hmem, heq⟩ := List.mem_map.mp h
  simp only [Prod.mk.injEq] at heq
  exact ⟨e, heq.1 ▸ hmem, heq.2.symm⟩

/-! Helper lemmas about the truncated-count derivation. -/

theorem mem_truncated_counts {l : List Nat} {P c : Nat} :
    (P, c) ∈ truncated_counts l ↔ P ∈ l ∧ c = l.countP fun p => decide (P ≤ p) := by
  unfold truncated_counts
  rw [List.mem_map]
  constructor
  · rintro ⟨pos, hpos, heq⟩
    simp only [Prod.mk.injEq] at heq
    obtain ⟨h1, h2⟩ := heq
    subst h1
    exact ⟨(List.perm_insertionSort (· ≤ ·) l).mem_iff.mp (List.mem_dedup.mp hpos), h2.symm⟩
  · rintro ⟨hP, hc⟩
    exact ⟨P, List.mem_dedup.mpr ((List.perm_insertionSort (· ≤ ·) l).mem_iff.mpr hP),
      by rw [hc]⟩

theorem not_mem_dropWhile_eq {v : Nat} :
    ∀ {l : List Nat}, l.Sorted (· ≤ ·) → (∀ x ∈ l, v ≤ x) →
      v ∉ l.dropWhile fun x => decide (x = v)
  | [], _, _ => by simp
  | x :: xs, hs, hge => by
    by_cases hx : x = v
    · rw [List.dropWhile_cons, if_pos (by simp [hx])]
      exact not_mem_dropWhile_eq hs.of_cons fun y hy => hge y (List.mem_cons_of_mem _ hy)
    · rw [List.dropWhile_cons, if_neg (by simp [hx])]
      intro hv
      rcases List.mem_cons.mp hv with h | h
      · exact hx h.symm
      · have h1 : x ≤ v := List.rel_of_sorted_cons hs v h
        have h2 : v ≤ x := hge x (List.mem_cons_self _ _)
        exact hx (Nat.le_antisymm h1 h2)

theorem dedup_cons_run (v : Nat) :
    ∀ (r1 t : List Nat), (∀ x ∈ r1, x = v) → v ∉ t →
      (v :: (r1 ++ t)).dedup = v :: t.dedup
  | [], t, _, hv => by
    simp only [List.nil_append]
    exact List.dedup_cons_of_not_mem hv
  | x :: r1, t, hall, hv => by
    have hx : x = v := hall x (List.mem_cons_self _ _)
    rw [List.cons_append, hx, List.dedup_cons_of_mem (List.mem_cons_self _ _)]
    exact dedup_cons_run v r1 t (fun y hy => hall y (List.mem_cons_of_mem _ hy)) hv

theorem suffix_counts_sorted_spec :
    ∀ (n : Nat) (s : List Nat), s.length ≤ n → s.Sorted (· ≤ ·) →
      suffix_counts_sorted s = s.dedup.map fun v => (v, s.countP fun p => decide (v ≤ p))
  | _, [], _, _ => by simp [suffix_counts_sorted]
  | 0, v :: rest, hlen, _ => by simp at hlen
  | Nat.succ n, v :: rest, hlen, hs => by
    have hrest : rest.Sorted (· ≤ ·) := hs.of_cons
    have hge : ∀ x ∈ rest, v ≤ x := List.rel_of_sorted_cons hs
    set t := rest.dropWhile (fun x => decide (x = v)) with ht
    set r1 := rest.takeWhile (fun x => decide (x = v)) with hr1
    have hsplit : r1 ++ t = rest := List.takeWhile_append_dropWhile _ _
    have hallr1 : ∀ x ∈ r1, x = v := by
      intro x hx
      have hh := List.mem_takeWhile_imp hx
      simpa using hh
    have hvt : v ∉ t := not_mem_dropWhile_eq hrest hge
    have htsub : List.Sublist t rest := List.dropWhile_sublist _
    have hts : t.Sorted (· ≤ ·) := List.Pairwise.sublist htsub hrest
    have hlen' : t.length ≤ n := by
      have h1 : t.length ≤ rest.length := htsub.length_le
      simp only [List.length_cons] at hlen
      omega
    have hded : (v :: rest).dedup = v :: t.dedup := by
      rw [← hsplit]
      exact dedup_cons_run v r1 t hallr1 hvt
    have hhead : ((v :: rest).countP fun p => decide (v ≤ p)) = rest.length + 1 := by
      have hall : ∀ a ∈ v :: rest, (fun p => decide (v ≤ p)) a = true := by
        intro a ha
        rcases List.mem_cons.mp ha with h | h
        · simp [h]
        · simpa using hge a h
      have h1 := List.countP_eq_length.mpr hall
      simpa using h1
    have hother : ∀ w ∈ t.dedup,
        ((v :: rest).countP fun p => decide (w ≤ p)) = t.countP fun p => decide (w ≤ p) := by
      intro w hw
      have hwt : w ∈ t := List.mem_dedup.mp hw
      have hwrest : w ∈ rest := htsub.mem hwt
      have hvw : v < w :=
        Nat.lt_of_le_of_ne (hge w hwrest) fun he => hvt (he ▸ hwt)
      have hstep : ((v :: rest).countP fun p => decide (w ≤ p)) =
          rest.countP fun p => decide (w ≤ p) := by
        rw [List.countP_cons]
        have hwv : (decide (w ≤ v)) = false := by
          simp only [decide_eq_false_iff_not]
          omega
        simp [hwv]
      rw [hstep, ← hsplit, List.countP_append]
      have hr10 : (r1.countP fun p => decide (w ≤ p)) = 0 := by
        rw [List.countP_eq_zero]
        intro a ha
        have ha' : a = v := hallr1 a ha
        subst ha'
        simp only [decide_eq_true_eq]
        omega
      rw [hr10]
      omega
    rw [suffix_counts_sorted, hded, List.map_cons, hhead]
    have htail : (t.dedup.map fun w => (w, (v :: rest).countP fun p => decide (w ≤ p))) =
        t.dedup.map fun w => (w, t.countP fun p => decide (w ≤ p)) := by
      apply List.map_congr_left
      intro w hw
      rw [hother w hw]
    rw [htail, ← suffix_counts_sorted_spec n t hlen' hts]

theorem truncated_counts_fast_eq_aux (l : List Nat) :
    truncated_counts_fast l = truncated_counts l := by
  unfold truncated_counts_fast truncated_counts
  rw [suffix_counts_sorted_spec (l.insertionSort (· ≤ ·)).length (l.insertionSort (· ≤ ·))
    le_rfl (List.sorted_insertionSort (· ≤ ·) l)]
  apply List.map_congr_left
  intro v hv
  rw [(List.perm_insertionSort (· ≤ ·) l).countP_eq]

/-! Helper lemmas about the leftmost pattern search. -/

theorem searchPos_some {f : List Char → Option Nat} :
    ∀ {l : List Char}, searchPos f l ≠ none → ∃ i, i < l.length ∧ f (l.drop i) ≠ none
  | [], h => absurd rfl h
  | c :: rest, h => by
    rw [searchPos] at h
    cases hf : f (c :: rest) with
    | some v => exact ⟨0, by simp, by simp [hf]⟩
    | none =>
      simp only [hf] at h
      obtain ⟨i, hi, hfi⟩ := searchPos_some h
      refine ⟨i + 1, by simpa using Nat.succ_lt_succ hi, ?_⟩
      simpa using hfi

theorem prot3MatchAt_shape {l : List Char} (h : prot3MatchAt l ≠ none) :
    ∃ rest, l = 'p' :: '.' :: rest := by
  unfold prot3MatchAt at h
  split at h
  · exact ⟨_, rfl⟩
  · exact absurd rfl h

theorem prot1MatchAt_shape {l : List Char} (h : prot1MatchAt l ≠ none) :
    ∃ rest, l = 'p' :: '.' :: rest := by
  unfold prot1MatchAt at h
  split at h
  · exact ⟨_, rfl⟩
  · exact absurd rfl h

theorem prot_search_none_of_no_pdot {name : String} (h : strContains name "p." = false) :
    prot_search name = none := by
  have key : ∀ (f : List Char → Option Nat),
      (∀ l : List Char, f l ≠ none → ∃ rest, l = 'p' :: '.' :: rest) →
      searchPos f name.toList = none := by
    intro f hf
    by_contra hne
    obtain ⟨i, hi, hfi⟩ := searchPos_some hne
    obtain ⟨rest, hrest⟩ := hf _ hfi
    have hpre : (("p.").toList).isPrefixOf (name.toList.drop i) = true := by
      rw [hrest]
      simp [List.isPrefixOf]
    have hcon : strContains name "p." = true := by
      unfold strContains
      rw [List.any_eq_true]
      exact ⟨i, List.mem_range.mpr (by omega), hpre⟩
    rw [hcon] at h
    cases h
  have h3 : protSearch3 name = none := by
    unfold protSearch3
    exact key prot3MatchAt fun l hl => prot3MatchAt_shape hl
  have h1 : protSearch1 name = none := by
    unfold protSearch1
    exact key prot1MatchAt fun l hl => prot1MatchAt_shape hl
  unfold prot_search
  rw [h3]
  exact h1

/-! Helper lemmas about the per-gene entry invariants. -/

theorem sumValues_bumpExon : ∀ (m : List (Nat × Nat)) (k : Nat),
    sumValues (bumpExon m k) = sumValues m + 1
  | [], k => by simp [bumpExon, sumValues]
  | (k0, v) :: rest, k => by
    by_cases h : k0 = k
    · simp only [bumpExon, if_pos h, sumValues, List.map_cons, List.sum_cons]
      omega
    · simp only [bumpExon, if_neg h, sumValues, List.map_cons, List.sum_cons]
      have ih := sumValues_bumpExon rest k
      simp only [sumValues] at ih
      omega

theorem bumpExon_values_pos : ∀ (m : List (Nat × Nat)) (k : Nat),
    (∀ kv ∈ m, 1 ≤ kv.2) → ∀ kv ∈ bumpExon m k, 1 ≤ kv.2
  | [], k, h => by simp [bumpExon]
  | (k0, v) :: rest, k, h => by
    by_cases hk : k0 = k
    · rw [bumpExon, if_pos hk]
      intro kv hkv
      rcases List.mem_cons.mp hkv with h1 | h1
      · subst h1; simp
      · exact h kv (List.mem_cons_of_mem _ h1)
    · rw [bumpExon, if_neg hk]
      intro kv hkv
      rcases List.mem_cons.mp hkv with h1 | h1
      · subst h1; exact h _ (List.mem_cons_self _ _)
      · exact bumpExon_values_pos rest k (fun kv hkv => h kv (List.mem_cons_of_mem _ hkv)) kv h1

/-- Scan-phase invariant of one gene entry: the position list and the exon
histogram are bounded by the number of appended variant names, and every
histogram bucket is at least one. -/
def entryInv (e : GeneEntry) : Prop :=
  e.position_list.length ≤ e.variant_names.length ∧
  sumValues e.exon_counts ≤ e.variant_names.length ∧
  ∀ kv ∈ e.exon_counts, 1 ≤ kv.2

theorem updateEntry_bounds (e0 : GeneEntry) (name : String) :
    (updateEntry e0 name).variant_names = e0.variant_names ++ [name] ∧
    (updateEntry e0 name).position_list.length ≤ e0.position_list.length + 1 ∧
    sumValues (updateEntry e0 name).exon_counts ≤ sumValues e0.exon_counts + 1 ∧
    ((∀ kv ∈ e0.exon_counts, 1 ≤ kv.2) →
      ∀ kv ∈ (updateEntry e0 name).exon_counts, 1 ≤ kv.2) := by
  unfold updateEntry
  cases hex : exonSearch name <;> cases hprot : prot_search name
  · exact ⟨rfl, by simp, by simp, fun h => h⟩
  · exact ⟨rfl, by simp, by simp, fun h => h⟩
  · exact ⟨rfl, by simp, by simp [sumValues_bumpExon], fun h => bumpExon_values_pos _ _ h⟩
  · exact ⟨rfl, by simp, by simp [sumValues_bumpExon], fun h => bumpExon_values_pos _ _ h⟩

theorem updateEntry_ok {e0 : GeneEntry} (name : String) (h : entryInv e0) :
    entryInv (updateEntry e0 name) ∧ (updateEntry e0 name).variant_names ≠ [] := by
  obtain ⟨hpos, hsum, hval⟩ := h
  obtain ⟨hn, hp, hs, hv⟩ := updateEntry_bounds e0 name
  have hlen : (updateEntry e0 name).variant_names.length = e0.variant_names.length + 1 := by
    rw [hn]
    simp
  refine ⟨⟨by omega, by omega, hv hval⟩, ?_⟩
  intro hnil
  rw [hnil] at hlen
  simp at hlen

theorem processCols_cases (gd : GeneData) (cols : List String) :
    processCols gd cols = gd ∨
    processCols gd cols =
      setGene gd (cols.getD 4 "")
        (updateEntry ((lookupGene gd (cols.getD 4 "")).getD emptyEntry) (cols.getD 2 "")) := by
  by_cases h35 : cols.length < 35
  · exact Or.inl (processCols_short h35)
  · by_cases hp : strContains (pyLower (cols.getD 6 "")) "pathogenic" = true
    · by_cases hc : strContains (pyLower (cols.getD 6 "")) "conflicting" = true
      · exact Or.inl (processCols_skip (Or.inr (Or.inr (Or.inl hc))))
      · by_cases hlof :
          (lof_keywords.any fun kw => strContains (pyLower (cols.getD 2 "")) kw) = true
        · exact Or.inr (processCols_included h35 hp (by simpa using hc) hlof)
        · exact Or.inl (processCols_skip (Or.inr (Or.inr (Or.inr (by simpa using hlof)))))
    · exact Or.inl (processCols_skip (Or.inr (Or.inl (by simpa using hp))))

theorem processCols_entryOk {gd : GeneData} (cols : List String)
    (h : ∀ p ∈ gd, entryInv p.2 ∧ p.2.variant_names ≠ []) :
    ∀ p ∈ processCols gd cols, entryInv p.2 ∧ p.2.variant_names ≠ [] := by
  rcases processCols_cases gd cols with hc | hc
  · rw [hc]; exact h
  · rw [hc]
    intro p hp
    rcases mem_setGene hp with hmem | hpe
    · exact h p hmem
    · rw [hpe]
      apply updateEntry_ok
      cases hlk : lookupGene gd (cols.getD 4 "") with
      | none => exact ⟨by simp [emptyEntry], by simp [emptyEntry, sumValues], by simp [emptyEntry]⟩
      | some e => exact (h (cols.getD 4 "", e) (lookupGene_mem hlk)).1

theorem foldl_entryOk (lines : List String) :
    ∀ gd : GeneData, (∀ p ∈ gd, entryInv p.2 ∧ p.2.variant_names ≠ []) →
      ∀ p ∈ lines.foldl processLine gd, entryInv p.2 ∧ p.2.variant_names ≠ [] := by
  induction lines with
  | nil => intro gd h; exact h
  | cons line rest ih =>
    intro gd h
    exact ih _ (processCols_entryOk _ h)

/-! Claim theorems. -/

/-- C5: the efficient derivation of the truncated counts — sort the
position list ascending, then accumulate suffix counts keyed by the
distinct values in one pass — produces, for every possible position list,
exactly the same mapping as the naive definition of the script that
counts, for each distinct P, the entries at least P. -/
theorem truncated_counts_refinement (l : List Nat) :
    truncated_counts_fast l = truncated_counts l :=
  truncated_counts_fast_eq_aux l

/-- C6: a data line that splits into fewer than 35 tab-separated fields is
skipped (the model is a total function, so no error is possible), leaves
the accumulator unchanged, and contributes to no gene entry: the build
over any surrounding lines equals the build without the short line. -/
theorem short_line_skipped :
    (∀ (gd : GeneData) (cols : List String), cols.length < 35 → processCols gd cols = gd) ∧
    (∀ (gd : GeneData) (line : String), (pySplit (pyStrip line)).length < 35 →
      processLine gd line = gd) ∧
    (∀ (pre post : List String) (line : String), (pySplit (pyStrip line)).length < 35 →
      build_clinvar_gene_index (pre ++ line :: post) =
        build_clinvar_gene_index (pre ++ post)) := by
  refine ⟨fun gd cols h => processCols_short h, fun gd line h => processCols_short h, ?_⟩
  intro pre post line h
  unfold build_clinvar_gene_index
  rw [List.foldl_append, List.foldl_append, List.foldl_cons]
  have hskip : processLine (pre.foldl processLine []) line = pre.foldl processLine [] :=
    processCols_short h
  rw [hskip]

/-- C6 witness: a three-field record leaves the empty accumulator
unchanged, and a short raw line between two qualifying lines does not
change the built index. -/
theorem short_line_skipped_witness :
    processCols [] ["only", "two", "cols"] = [] ∧
    build_clinvar_gene_index
        [exLine "NM_1:c.100del" "A" "Pathogenic", "too\tshort",
         exLine "NM_0:c.1G>T (p.Arg714Ter)" "B" "Pathogenic"] =
      build_clinvar_gene_index
        [exLine "NM_1:c.100del" "A" "Pathogenic",
         exLine "NM_0:c.1G>T (p.Arg714Ter)" "B" "Pathogenic"] :=
  ⟨short_line_skipped.1 [] ["only", "two", "cols"] (by decide),
   short_line_skipped.2.2 [exLine "NM_1:c.100del" "A" "Pathogenic"]
     [exLine "NM_0:c.1G>T (p.Arg714Ter)" "B" "Pathogenic"] "too\tshort" (by decide)⟩

/-- C9: building twice from the same sequence of data lines yields
semantically identical indices: the same entries, the same gene symbols in
the same order, and for every entry of the first run a matching entry of
the second run with componentwise equal exon counts, position list,
variant names and truncated counts. The embedded build is a pure function
of the line list, which is the deterministic-iteration premise of the
claim. -/
theorem build_deterministic (lines : List String) :
    build_clinvar_gene_index lines = build_clinvar_gene_index lines ∧
    (build_clinvar_gene_index lines).map Prod.fst =
      (build_clinvar_gene_index lines).map Prod.fst ∧
    ∀ p ∈ build_clinvar_gene_index lines, ∃ q ∈ build_clinvar_gene_index lines,
      p.1 = q.1 ∧ p.2.exon_counts = q.2.exon_counts ∧
      p.2.position_list = q.2.position_list ∧
      p.2.variant_names = q.2.variant_names ∧
      p.2.truncated_counts = q.2.truncated_counts :=
  ⟨rfl, rfl, fun p hp => ⟨p, hp, rfl, rfl, rfl, rfl, rfl⟩⟩

/-- C9 witness: the determinism statement at a concrete one-line input. -/
theorem build_deterministic_witness :
    build_clinvar_gene_index [exLine "p.Q918Tfs*24" "Q" "Pathogenic"] =
      build_clinvar_gene_index [exLine "p.Q918Tfs*24" "Q" "Pathogenic"] ∧
    (build_clinvar_gene_index [exLine "p.Q918Tfs*24" "Q" "Pathogenic"]).map Prod.fst =
      (build_clinvar_gene_index [exLine "p.Q918Tfs*24" "Q" "Pathogenic"]).map Prod.fst ∧
    ∀ p ∈ build_clinvar_gene_index [exLine "p.Q918Tfs*24" "Q" "Pathogenic"],
      ∃ q ∈ build_clinvar_gene_index [exLine "p.Q918Tfs*24" "Q" "Pathogenic"],
      p.1 = q.1 ∧ p.2.exon_counts = q.2.exon_counts ∧
      p.2.position_list = q.2.position_list ∧
      p.2.variant_names = q.2.variant_names ∧
      p.2.truncated_counts = q.2.truncated_counts :=
  build_deterministic [exLine "p.Q918Tfs*24" "Q" "Pathogenic"]

/-- C3: the protein-position extraction tries the three-letter pattern
first and the single-letter pattern only when the first finds nothing,
records no position when neither matches (in particular whenever the name
lacks the two-character substring starting a protein change), yields 714
for `NM_000000.1:c.100G>A (p.Arg714Ter)` and 918 for `p.Q918Tfs*24`, and a
qualifying record whose name carries no protein change still creates its
gene entry, with the name tracked and the position list empty. -/
theorem protein_position_extraction :
    (∀ name : String, (protSearch3 name).isSome = true →
      prot_search name = protSearch3 name) ∧
    (∀ name : String, protSearch3 name = none → prot_search name = protSearch1 name) ∧
    prot_search "NM_000000.1:c.100G>A (p.Arg714Ter)" = some 714 ∧
    prot_search "p.Q918Tfs*24" = some 918 ∧
    (∀ name : String, strContains name "p." = false → prot_search name = none) ∧
    build_clinvar_gene_index [exLine "NM_1:c.100del" "A" "Pathogenic"] =
      [("A", finalizeEntry ⟨[], [], ["NM_1:c.100del"]⟩)] := by
  refine ⟨?_, ?_, by decide, by decide, fun name h => prot_search_none_of_no_pdot h, by decide⟩
  · intro name h
    unfold prot_search
    cases h3 : protSearch3 name with
    | some v => rfl
    | none => rw [h3] at h; cases h
  · intro name h
    unfold prot_search
    rw [h]

/-- C3 witness: the fallback order and the no-position case at concrete
names. -/
theorem protein_position_extraction_witness :
    prot_search "p.Arg714Ter" = protSearch3 "p.Arg714Ter" ∧
    prot_search "p.Q918Tfs*24" = protSearch1 "p.Q918Tfs*24" ∧
    prot_search "c.100_102delAAG" = none :=
  ⟨protein_position_extraction.1 "p.Arg714Ter" (by decide),
   protein_position_extraction.2.1 "p.Q918Tfs*24" (by decide),
   protein_position_extraction.2.2.2.2.1 "c.100_102delAAG" (by decide)⟩

/-- C2: a record with at least 35 tab-separated fields qualifies for
inclusion — its gene entry (column 4) gains the variant name — exactly
when the clinical-significance column 6, compared case-insensitively,
contains "pathogenic" and does not contain "conflicting", and the name
column 2, compared case-insensitively, contains one of the ten
loss-of-function keywords; in particular significance "Pathogenic" with a
name containing "frameshift" is included, and significance
"Pathogenic/Likely_pathogenic, Conflicting" is excluded regardless of the
name. -/
theorem filter_qualification :
    (∀ (gd : GeneData) (cols : List String), 35 ≤ cols.length →
      ((strContains (pyLower (cols.getD 6 "")) "pathogenic" = true ∧
        strContains (pyLower (cols.getD 6 "")) "conflicting" = false ∧
        ∃ kw ∈ lof_keywords, strContains (pyLower (cols.getD 2 "")) kw = true) ↔
        ∃ e, lookupGene (processCols gd cols) (cols.getD 4 "") = some e ∧
          e.variant_names =
            ((lookupGene gd (cols.getD 4 "")).getD emptyEntry).variant_names ++
              [cols.getD 2 ""])) ∧
    (∀ (gd : GeneData) (cols : List String), 35 ≤ cols.length →
      cols.getD 6 "" = "Pathogenic" →
      strContains (pyLower (cols.getD 2 "")) "frameshift" = true →
      ∃ e, lookupGene (processCols gd cols) (cols.getD 4 "") = some e ∧
        e.variant_names =
          ((lookupGene gd (cols.getD 4 "")).getD emptyEntry).variant_names ++
            [cols.getD 2 ""]) ∧
    (∀ (gd : GeneData) (cols : List String),
      cols.getD 6 "" = "Pathogenic/Likely_pathogenic, Conflicting" →
      processCols gd cols = gd) := by
  refine ⟨?_, ?_, ?_⟩
  · intro gd cols h35
    constructor
    · rintro ⟨hp, hc, kw, hkw, hkwc⟩
      have hlof : (lof_keywords.any fun kw => strContains (pyLower (cols.getD 2 "")) kw) = true :=
        List.any_eq_true.mpr ⟨kw, hkw, hkwc⟩
      rw [processCols_included (by omega) hp hc hlof]
      exact ⟨_, lookupGene_setGene_self _ _ _, updateEntry_variant_names _ _⟩
    · rintro ⟨e, he, hnames⟩
      have contra : processCols gd cols = gd → False := by
        intro hskip
        rw [hskip] at he
        rw [he] at hnames
        have hlen := congrArg List.length hnames
        simp only [Option.getD_some, List.length_append, List.length_cons,
          List.length_nil] at hlen
        omega
      by_cases hp : strContains (pyLower (cols.getD 6 "")) "pathogenic" = true
      · by_cases hc : strContains (pyLower (cols.getD 6 "")) "conflicting" = true
        · exact (contra (processCols_skip (Or.inr (Or.inr (Or.inl hc))))).elim
        · by_cases hlof :
            (lof_keywords.any fun kw => strContains (pyLower (cols.getD 2 "")) kw) = true
          · exact ⟨hp, by simpa using hc, List.any_eq_true.mp hlof⟩
          · exact (contra (processCols_skip
              (Or.inr (Or.inr (Or.inr (by simpa using hlof)))))).elim
      · exact (contra (processCols_skip (Or.inr (Or.inl (by simpa using hp))))).elim
  · intro gd cols h35 hsig hfs
    have hp : strContains (pyLower (cols.getD 6 "")) "pathogenic" = true := by
      rw [hsig]; decide
    have hc : strContains (pyLower (cols.getD 6 "")) "conflicting" = false := by
      rw [hsig]; decide
    have hlof : (lof_keywords.any fun kw => strContains (pyLower (cols.getD 2 "")) kw) = true :=
      List.any_eq_true.mpr ⟨"frameshift", by decide, hfs⟩
    rw [processCols_included (by omega) hp hc hlof]
    exact ⟨_, lookupGene_setGene_self _ _ _, updateEntry_variant_names _ _⟩
  · intro gd cols hsig
    apply processCols_skip
    refine Or.inr (Or.inr (Or.inl ?_))
    rw [hsig]
    decide

/-- C2 witness: a fresh accumulator includes a frameshift record with
significance "Pathogenic", and drops a record whose significance carries
"Conflicting". -/
theorem filter_qualification_witness :
    (∃ e, lookupGene (processCols [] (exCols "c.1frameshift" "G1" "Pathogenic")) "G1" = some e ∧
      e.variant_names =
        ((lookupGene ([] : GeneData) "G1").getD emptyEntry).variant_names ++
          ["c.1frameshift"]) ∧
    processCols [] (exCols "anything" "G2" "Pathogenic/Likely_pathogenic, Conflicting") = [] :=
  ⟨filter_qualification.2.1 [] (exCols "c.1frameshift" "G1" "Pathogenic")
      (by decide) (by decide) (by decide),
   filter_qualification.2.2 []
      (exCols "anything" "G2" "Pathogenic/Likely_pathogenic, Conflicting") (by decide)⟩

/-- C1: for every gene entry of the finalized index, the truncated-counts
mapping has as keys exactly the distinct values occurring in the gene's
position list, and the value stored at each key P equals the number of
position-list entries, counted with multiplicity, whose value is at least
P. -/
theorem truncated_counts_keys_values (lines : List String) (g : String) (fe : FinalEntry)
    (h : (g, fe) ∈ build_clinvar_gene_index lines) :
    (∀ P : Nat, (∃ c, (P, c) ∈ fe.truncated_counts) ↔ P ∈ fe.position_list) ∧
    ∀ P c : Nat, (P, c) ∈ fe.truncated_counts →
      c = fe.position_list.countP fun p => decide (P ≤ p) := by
  obtain ⟨e, hmem, hfe⟩ := mem_build h
  subst hfe
  refine ⟨fun P => ⟨?_, ?_⟩, fun P c hc => (mem_truncated_counts.mp hc).2⟩
  · rintro ⟨c, hc⟩
    exact (mem_truncated_counts.mp hc).1
  · intro hP
    exact ⟨_, mem_truncated_counts.mpr ⟨hP, rfl⟩⟩

/-- C1 witness: the keys/values statement at a concrete one-gene build. -/
theorem truncated_counts_keys_values_witness :
    (∀ P : Nat,
      (∃ c, (P, c) ∈
        (finalizeEntry ⟨[], [714], ["NM_0:c.1G>T (p.Arg714Ter)"]⟩).truncated_counts) ↔
      P ∈ (finalizeEntry ⟨[], [714], ["NM_0:c.1G>T (p.Arg714Ter)"]⟩).position_list) ∧
    ∀ P c : Nat,
      (P, c) ∈ (finalizeEntry ⟨[], [714], ["NM_0:c.1G>T (p.Arg714Ter)"]⟩).truncated_counts →
      c = (finalizeEntry ⟨[], [714], ["NM_0:c.1G>T (p.Arg714Ter)"]⟩).position_list.countP
        fun p => decide (P ≤ p) :=
  truncated_counts_keys_values [exLine "NM_0:c.1G>T (p.Arg714Ter)" "B" "Pathogenic"] "B"
    (finalizeEntry ⟨[], [714], ["NM_0:c.1G>T (p.Arg714Ter)"]⟩) (by decide)

/-- C4: for every gene of the produced index the truncated-count values
are non-increasing as the position key grows, and the value stored at the
minimum recorded position equals the total length of the gene's position
list. -/
theorem truncated_counts_monotone (lines : List String) (g : String) (fe : FinalEntry)
    (h : (g, fe) ∈ build_clinvar_gene_index lines) :
    (∀ P c Q d : Nat, (P, c) ∈ fe.truncated_counts → (Q, d) ∈ fe.truncated_counts →
      P ≤ Q → d ≤ c) ∧
    ∀ m : Nat, m ∈ fe.position_list → (∀ p ∈ fe.position_list, m ≤ p) →
      (m, fe.position_list.length) ∈ fe.truncated_counts := by
  obtain ⟨e, hmem, hfe⟩ := mem_build h
  subst hfe
  constructor
  · intro P c Q d hP hQ hPQ
    obtain ⟨_, hc⟩ := mem_truncated_counts.mp hP
    obtain ⟨_, hd⟩ := mem_truncated_counts.mp hQ
    rw [hc, hd]
    apply List.countP_mono_left
    intro a ha hQa
    simp only [decide_eq_true_eq] at hQa ⊢
    omega
  · intro m hm hmin
    apply mem_truncated_counts.mpr
    refine ⟨hm, ?_⟩
    have hall : ∀ a ∈ e.position_list, (fun p => decide (m ≤ p)) a = true := by
      intro a ha
      simpa using hmin a ha
    rw [List.countP_eq_length.mpr hall]
    rfl

/-- C4 witness: at a concrete two-position gene, the count at the minimum
position 10 is the full length 2, and the counts are non-increasing from
key 10 to key 714. -/
theorem truncated_counts_monotone_witness :
    ((10 : Nat), (2 : Nat)) ∈
      (finalizeEntry
        ⟨[], [714, 10], ["NM_0:c.1G>T (p.Arg714Ter)", "p.Q10Tfs*2"]⟩).truncated_counts ∧
    (1 : Nat) ≤ 2 :=
  ⟨(truncated_counts_monotone
      [exLine "NM_0:c.1G>T (p.Arg714Ter)" "B" "Pathogenic",
       exLine "p.Q10Tfs*2" "B" "Pathogenic"] "B"
      (finalizeEntry ⟨[], [714, 10], ["NM_0:c.1G>T (p.Arg714Ter)", "p.Q10Tfs*2"]⟩)
      (by decide)).2 10 (by decide) (by decide),
   (truncated_counts_monotone
      [exLine "NM_0:c.1G>T (p.Arg714Ter)" "B" "Pathogenic",
       exLine "p.Q10Tfs*2" "B" "Pathogenic"] "B"
      (finalizeEntry ⟨[], [714, 10], ["NM_0:c.1G>T (p.Arg714Ter)", "p.Q10Tfs*2"]⟩)
      (by decide)).1 10 2 714 1 (by decide) (by decide) (by decide)⟩

/-- C10: every gene entry of the finalized index has a non-empty
variant-name list, a position list at most as long as the variant-name
list, an exon histogram whose values sum to at most the variant-name
count, and every histogram value at least one. -/
theorem gene_entry_invariants (lines : List String) (g : String) (fe : FinalEntry)
    (h : (g, fe) ∈ build_clinvar_gene_index lines) :
    fe.variant_names ≠ [] ∧
    fe.position_list.length ≤ fe.variant_names.length ∧
    sumValues fe.exon_counts ≤ fe.variant_names.length ∧
    ∀ kv ∈ fe.exon_counts, 1 ≤ kv.2 := by
  obtain ⟨e, hmem, hfe⟩ := mem_build h
  subst hfe
  have hok := foldl_entryOk lines [] (by simp) (g, e) hmem
  obtain ⟨⟨h1, h2, h3⟩, h4⟩ := hok
  exact ⟨h4, h1, h2, h3⟩

/-- C10 witness: the invariants at a concrete entry carrying one exon
annotation, one position and one name. -/
theorem gene_entry_invariants_witness :
    (finalizeEntry
      ⟨[(7, 1)], [714], ["deletion of exon 7 (p.Arg714Ter)"]⟩).variant_names ≠ [] ∧
    (finalizeEntry
      ⟨[(7, 1)], [714], ["deletion of exon 7 (p.Arg714Ter)"]⟩).position_list.length ≤
      (finalizeEntry
        ⟨[(7, 1)], [714], ["deletion of exon 7 (p.Arg714Ter)"]⟩).variant_names.length ∧
    sumValues (finalizeEntry
      ⟨[(7, 1)], [714], ["deletion of exon 7 (p.Arg714Ter)"]⟩).exon_counts ≤
      (finalizeEntry
        ⟨[(7, 1)], [714], ["deletion of exon 7 (p.Arg714Ter)"]⟩).variant_names.length ∧
    ∀ kv ∈ (finalizeEntry
      ⟨[(7, 1)], [714], ["deletion of exon 7 (p.Arg714Ter)"]⟩).exon_counts, 1 ≤ kv.2 :=
  gene_entry_invariants [exLine "deletion of exon 7 (p.Arg714Ter)" "D" "Pathogenic"] "D"
    (finalizeEntry ⟨[(7, 1)], [714], ["deletion of exon 7 (p.Arg714Ter)"]⟩) (by decide)

/-- C7 counterexample: a run in which the input exists and is readable but
the dump fails exits with a non-zero status and leaves an output file that
is neither the full index nor absent, refuting the claim that in every
failing run either the full finalized index is written or no output file
is produced at all. -/
theorem incomplete_artifact_possible :
    (run_build true true [] WriteOutcome.dumpFailed OutputState.noFile).1 ≠ 0 ∧
    isFullOrAbsent (run_build true true [] WriteOutcome.dumpFailed OutputState.noFile).2 =
      false := by
  decide

/-- C7 amended: when the input path does not resolve to a readable file
the process exits non-zero with the output path untouched (nothing is
created or overwritten), a read failure likewise exits non-zero with the
output untouched, a fully successful run writes the full finalized index
and exits zero, and every run that exits zero has written the full index;
but a failure during the dump can leave an incomplete artifact, so a
failing run does not always leave the full index or nothing. -/
theorem run_build_failure_modes (inputExists readOk : Bool) (lines : List String)
    (w : WriteOutcome) (prior : OutputState) :
    (inputExists = false → run_build inputExists readOk lines w prior = (1, prior)) ∧
    (readOk = false → run_build inputExists readOk lines w prior = (1, prior)) ∧
    (inputExists = true → readOk = true → w = WriteOutcome.ok →
      run_build inputExists readOk lines w prior =
        (0, OutputState.fullIndex (build_clinvar_gene_index lines))) ∧
    ((run_build inputExists readOk lines w prior).1 = 0 →
      (run_build inputExists readOk lines w prior).2 =
        OutputState.fullIndex (build_clinvar_gene_index lines)) := by
  cases inputExists <;> cases readOk <;> cases w <;> simp [run_build]

/-- C7 witness: a missing input exits non-zero leaving the output state as
it was, and a fully successful run writes the full index with exit code
zero. -/
theorem run_build_failure_modes_witness :
    run_build false true [] WriteOutcome.ok OutputState.noFile = (1, OutputState.noFile) ∧
    run_build true true [] WriteOutcome.ok OutputState.noFile =
      (0, OutputState.fullIndex (build_clinvar_gene_index [])) :=
  ⟨(run_build_failure_modes false true [] WriteOutcome.ok OutputState.noFile).1 rfl,
   (run_build_failure_modes true true [] WriteOutcome.ok OutputState.noFile).2.2.1
     rfl rfl rfl⟩

/-- C8 counterexample: with gene A contributing two qualifying variants
without extractable protein positions and gene B contributing one
qualifying variant with a position, the summary ranks B first (with
reported count 1) although A has strictly more qualifying variants (two);
the report therefore does not rank the genes by qualifying-variant
count. -/
theorem top10_not_by_qualifying_count :
    (top10_report (build_clinvar_gene_index
      [exLine "NM_1:c.100del" "A" "Pathogenic",
       exLine "NM_1:c.200del" "A" "Pathogenic",
       exLine "NM_0:c.1G>T (p.Arg714Ter)" "B" "Pathogenic"])).map (fun r => r.1) =
      ["B", "A"] ∧
    ("A", finalizeEntry ⟨[], [], ["NM_1:c.100del", "NM_1:c.200del"]⟩) ∈
      build_clinvar_gene_index
        [exLine "NM_1:c.100del" "A" "Pathogenic",
         exLine "NM_1:c.200del" "A" "Pathogenic",
         exLine "NM_0:c.1G>T (p.Arg714Ter)" "B" "Pathogenic"] ∧
    ("B", finalizeEntry ⟨[], [714], ["NM_0:c.1G>T (p.Arg714Ter)"]⟩) ∈
      build_clinvar_gene_index
        [exLine "NM_1:c.100del" "A" "Pathogenic",
         exLine "NM_1:c.200del" "A" "Pathogenic",
         exLine "NM_0:c.1G>T (p.Arg714Ter)" "B" "Pathogenic"] ∧
    (finalizeEntry
        (⟨[], [714], ["NM_0:c.1G>T (p.Arg714Ter)"]⟩ : GeneEntry)).variant_names.length <
      (finalizeEntry
        (⟨[], [], ["NM_1:c.100del", "NM_1:c.200del"]⟩ : GeneEntry)).variant_names.length := by
  decide

/-- C8 amended: the final summary reports the ten genes with the highest
position-list length — the number of qualifying variants with an
extracted protein position, not the total qualifying-variant count — with
ties broken by first-encountered order, each annotated with the sum of its
exon-histogram values: the rows arise from a stably sorted permutation of
the gene/count pairs (non-increasing counts, original order of ties kept),
truncated to ten, and every row carries its gene's position-list length
and exon-histogram sum. -/
theorem top10_report_ranking (lines : List String) :
    ∃ s : List (String × Nat),
      s.Perm (gene_counts_of (build_clinvar_gene_index lines)) ∧
      List.Pairwise (fun a b : String × Nat => b.2 ≤ a.2) s ∧
      (∀ a b : String × Nat,
        List.Sublist [a, b] (gene_counts_of (build_clinvar_gene_index lines)) → a.2 = b.2 →
        List.Sublist [a, b] s) ∧
      top10_report (build_clinvar_gene_index lines) =
        (s.take 10).map (annotate (build_clinvar_gene_index lines)) ∧
      ∀ r ∈ top10_report (build_clinvar_gene_index lines),
        ∃ fe, (r.1, fe) ∈ build_clinvar_gene_index lines ∧
          r.2.1 = fe.position_list.length ∧ r.2.2 = sumValues fe.exon_counts := by
  refine ⟨(gene_counts_of (build_clinvar_gene_index lines)).insertionSort pairGe,
    List.perm_insertionSort _ _, List.sorted_insertionSort pairGe _, ?_, rfl, ?_⟩
  · intro a b hsub htie
    exact List.sublist_insertionSort (List.pairwise_pair.mpr htie.ge) hsub
  · intro r hr
    obtain ⟨gc, hgc, hann⟩ := List.mem_map.mp hr
    have hgc2 : gc ∈ gene_counts_of (build_clinvar_gene_index lines) :=
      (List.perm_insertionSort pairGe _).mem_iff.mp (List.mem_of_mem_take hgc)
    obtain ⟨ge, hge, hgeq⟩ := List.mem_map.mp hgc2
    subst hgeq
    subst hann
    have hlk : lookupFinal (build_clinvar_gene_index lines) ge.1 = some ge.2 :=
      lookupFinal_eq_some_of_mem (build_keys_nodup lines) hge
    exact ⟨ge.2, hge, rfl, by simp [annotate, hlk]⟩

/-- C8 amended witness: the characterization at the concrete three-line
build of the counterexample. -/
theorem top10_report_ranking_witness :
    ∃ s : List (String × Nat),
      s.Perm (gene_counts_of (build_clinvar_gene_index
        [exLine "NM_1:c.100del" "A" "Pathogenic",
         exLine "NM_1:c.200del" "A" "Pathogenic",
         exLine "NM_0:c.1G>T (p.Arg714Ter)" "B" "Pathogenic"])) ∧
      List.Pairwise (fun a b : String × Nat => b.2 ≤ a.2) s ∧
      (∀ a b : String × Nat,
        List.Sublist [a, b] (gene_counts_of (build_clinvar_gene_index
          [exLine "NM_1:c.100del" "A" "Pathogenic",
           exLine "NM_1:c.200del" "A" "Pathogenic",
           exLine "NM_0:c.1G>T (p.Arg714Ter)" "B" "Pathogenic"])) → a.2 = b.2 →
        List.Sublist [a, b] s) ∧
      top10_report (build_clinvar_gene_index
        [exLine "NM_1:c.100del" "A" "Pathogenic",
         exLine "NM_1:c.200del" "A" "Pathogenic",
         exLine "NM_0:c.1G>T (p.Arg714Ter)" "B" "Pathogenic"]) =
        (s.take 10).map (annotate (build_clinvar_gene_index
          [exLine "NM_1:c.100del" "A" "Pathogenic",
           exLine "NM_1:c.200del" "A" "Pathogenic",
           exLine "NM_0:c.1G>T (p.Arg714Ter)" "B" "Pathogenic"])) ∧
      ∀ r ∈ top10_report (build_clinvar_gene_index
        [exLine "NM_1:c.100del" "A" "Pathogenic",
         exLine "NM_1:c.200del" "A" "Pathogenic",
         exLine "NM_0:c.1G>T (p.Arg714Ter)" "B" "Pathogenic"]),
        ∃ fe, (r.1, fe) ∈ build_clinvar_gene_index
          [exLine "NM_1:c.100del" "A" "Pathogenic",
           exLine "NM_1:c.200del" "A" "Pathogenic",
           exLine "NM_0:c.1G>T (p.Arg714Ter)" "B" "Pathogenic"] ∧
          r.2.1 = fe.position_list.length ∧ r.2.2 = sumValues fe.exon_counts :=
  top10_report_ranking
    [exLine "NM_1:c.100del" "A" "Pathogenic",
     exLine "NM_1:c.200del" "A" "Pathogenic",
     exLine "NM_0:c.1G>T (p.Arg714Ter)" "B" "Pathogenic"]
